import Mathlib

/-!
Verification of the `Role` permission engine of `src/permissions/role.ts`.

The TypeScript class mutates JavaScript arrays in place and shares array
references between fields (`this.permissions = permissions;
this.rawPermissions = permissions;`), so the embedding models the array
store explicitly: a `Heap` maps array ids (allocation indices) to their
current contents, and a `Role` holds array ids for its two permission
fields.  Lodash helpers (`union`, `dropRight`, `kebabCase`) and the JS
string/regex primitives the class uses are modelled below; each model is
documented at its definition.
-/

/-! ### JS string primitives

Permission strings are ordinary Lean `String`s; the character-level
operations the source uses (`split(':')`, `join(':')`, lower-casing for
the `i` regex flag) are defined structurally over `String.data` so that
concrete instances evaluate inside the kernel. -/

/-- Lower-casing of one character, modelling the canonicalisation done by
the JS regex `i` flag (ASCII case folding via `Char.toLower`). -/
def lcChar (c : Char) : Char := c.toLower

/-- Lower-casing of a character list. -/
def lcList (cs : List Char) : List Char := cs.map lcChar

/-- Model of JS `String.prototype.split` with a one-character separator:
`"".split(sep)` is `[""]`, a trailing separator yields a trailing empty
segment. -/
def splitSegs (sep : Char) : List Char → List (List Char)
  | [] => [[]]
  | c :: cs =>
    let rest := splitSegs sep cs
    if c = sep then [] :: rest
    else
      match rest with
      | [] => [[c]]
      | w :: ws => (c :: w) :: ws

/-- Model of JS `Array.prototype.join(":")` on a list of segments. -/
def joinSegs : List (List Char) → List Char
  | [] => []
  | [w] => w
  | w :: ws => w ++ ':' :: joinSegs ws

/-- `e.split(':')` of the source, as Lean strings. -/
def splitColon (e : String) : List String :=
  (splitSegs ':' e.data).map String.mk

/-- `segments.join(':')` of the source, as Lean strings. -/
def joinColon (ws : List String) : String :=
  String.mk (joinSegs (ws.map String.data))

/-! ### Model of the regular-expression call in `Role.has`

`Role.has` builds `new RegExp("(" ++ body ++ ".*)", "i").test(permission)`
where `body` is the wildcard entry's segments minus the last one, joined
by `:`.  `test` searches for a match anywhere in the subject (it is not
anchored), the surrounding capturing group never changes the boolean
outcome, and the `i` flag compares case-insensitively.  The body is
parsed with `.` as the any-character class and `*` as zero-or-more of the
preceding atom; a `*` with nothing to repeat (leading `*`, or `**`) is a
`SyntaxError`, modelled as `none` — exactly what JS throws for those
patterns.  Bodies containing the remaining metacharacters
`( ) [ ] { } | ^ $ + ? \` are outside the model (also `none`); no theorem
below claims anything about entries containing them. -/

/-- One regex atom of the modelled subset. -/
inductive RAtom : Type where
  | dot : RAtom
  | lit : Char → RAtom
deriving DecidableEq

/-- An atom together with an optional `*` quantifier. -/
structure RPiece : Type where
  atom : RAtom
  starred : Bool
deriving DecidableEq

/-- Metacharacters whose regex behaviour is not modelled. -/
def unmodeledMeta (c : Char) : Bool :=
  c = '(' || c = ')' || c = '[' || c = ']' || c.toNat = 123 || c.toNat = 125 ||
  c = '|' || c = '^' || c = '$' || c = '+' || c = '?' || c = '\\'

/-- A character that the pattern parser treats as a literal. -/
def regexLiteralChar (c : Char) : Bool :=
  !(c = '*' || c = '.' || unmodeledMeta c)

/-- A pattern body all of whose characters are regex literals. -/
def regexSafe (w : String) : Bool := w.data.all regexLiteralChar

/-- Parser for the pattern body, accumulator in reverse order. -/
def parseBodyAux : List RPiece → List Char → Option (List RPiece)
  | acc, [] => some acc.reverse
  | acc, c :: cs =>
    if c = '*' then
      match acc with
      | [] => none
      | p :: rest =>
        if p.starred then none
        else parseBodyAux ({ p with starred := true } :: rest) cs
    else if c = '.' then parseBodyAux (⟨RAtom.dot, false⟩ :: acc) cs
    else if unmodeledMeta c then none
    else parseBodyAux (⟨RAtom.lit c, false⟩ :: acc) cs

/-- Parse a pattern body into pieces, `none` on a JS `SyntaxError` or an
unmodelled metacharacter. -/
def parseBody (cs : List Char) : Option (List RPiece) := parseBodyAux [] cs

/-- Whether an atom matches one subject character, `i`-flag style; `.`
matches everything except the JS line terminators. -/
def atomMatch : RAtom → Char → Bool
  | RAtom.dot, c => !(c = '\n' || c = '\r' || c.toNat = 8232 || c.toNat = 8233)
  | RAtom.lit a, c => lcChar a = lcChar c

/-- All suffixes reachable from `cs` by consuming zero or more characters
matching atom `a` (the expansion of `a*`). -/
def starSuffixes (a : RAtom) : List Char → List (List Char)
  | [] => [[]]
  | c :: cs => (c :: cs) :: (if atomMatch a c then starSuffixes a cs else [])

/-- All suffixes reachable from `cs` by consuming one piece. -/
def pieceSuffixes (p : RPiece) (cs : List Char) : List (List Char) :=
  if p.starred then starSuffixes p.atom cs
  else
    match cs with
    | [] => []
    | c :: cs' => if atomMatch p.atom c then [cs'] else []

/-- Whether the pieces match some prefix of `cs`. -/
def matchesHere : List RPiece → List Char → Bool
  | [], _ => true
  | p :: ps, cs => (pieceSuffixes p cs).any fun cs' => matchesHere ps cs'

/-- Whether the pieces match starting at some position of `cs` — the
unanchored search performed by `RegExp.prototype.test`. -/
def searchFrom (ps : List RPiece) : List Char → Bool
  | [] => matchesHere ps []
  | c :: cs' => matchesHere ps (c :: cs') || searchFrom ps cs'

/-- Model of `new RegExp("(" ++ body ++ ".*)", "i").test s`: the group
marks are dropped (they never affect `test`), the literal trailing `.*`
becomes a final starred-dot piece, and the body is parsed as described
above; `none` models a thrown `SyntaxError` (or an unmodelled pattern). -/
def jsTestCI (body : String) (s : String) : Option Bool :=
  match parseBody body.data with
  | none => none
  | some ps => some (searchFrom (ps ++ [⟨RAtom.dot, true⟩]) s.data)

/-- Case-insensitive occurrence of `pat` starting at some position of the
subject: the behaviour of the generated regex for metacharacter-free
bodies. -/
def ciOccurs (pat : List Char) : List Char → Bool
  | [] => (lcList pat).isPrefixOf []
  | c :: cs' => (lcList pat).isPrefixOf (lcList (c :: cs')) || ciOccurs pat cs'

/-- `pat` occurs somewhere inside `s`, compared case-insensitively. -/
def ciSubstring (pat s : String) : Bool := ciOccurs pat.data s.data

/-! ### Lodash helpers used by the source -/

/-- Accumulator pass of lodash `uniq`: keep the first occurrence of each
value, dropping values already seen. -/
def uniqAux : List String → List String → List String
  | [], _ => []
  | x :: xs, seen =>
    if x ∈ seen then uniqAux xs seen else x :: uniqAux xs (x :: seen)

/-- Lodash `uniq`: first-occurrence de-duplication. -/
def uniq (l : List String) : List String := uniqAux l []

/-- Lodash `union(a, b)`: the unique values of `a ++ b`, in first-seen
order (note that it de-duplicates `a` itself as well). -/
def lunion (a b : List String) : List String := uniq (a ++ b)

/-- Lodash `kebabCase`, simplified: split on non-alphanumeric characters,
lower-case, join with hyphens.  The word splitting of the real lodash
(camel-case boundaries, deburring) is not reproduced; the slug plays no
part in any permission claim. -/
def kebabCase (s : String) : String :=
  let keep := fun g : List Char => decide (g ≠ [])
  let groups := (s.data.splitOnP (fun c => !c.isAlphanum)).filter keep
  String.intercalate "-" (groups.map (fun g => String.mk (g.map Char.toLower)))

/-! ### The array store

JavaScript arrays are mutable objects passed by reference; `Role` fields
hold references and the constructor aliases `rawPermissions` and
`permissions` to the same array.  The store maps an array id (its
allocation index) to its current contents; allocation appends, in-place
mutation (`push`) overwrites one slot. -/

structure Heap : Type where
  arrays : List (List String)

/-- Read the array behind an id (a dangling id reads as empty). -/
def Heap.deref (h : Heap) (a : Nat) : List String := h.arrays.getD a []

/-- Allocate a fresh array, returning the new store and the new id. -/
def Heap.alloc (h : Heap) (l : List String) : Heap × Nat :=
  (⟨h.arrays ++ [l]⟩, h.arrays.length)

/-- Overwrite the contents of an existing array in place. -/
def Heap.write (h : Heap) (a : Nat) (l : List String) : Heap :=
  ⟨h.arrays.set a l⟩

/-! ### The Role entity -/

/-- `RoleType` of the source: `'internal' | 'custom'`. -/
inductive RoleType : Type where
  | internal : RoleType
  | custom : RoleType
deriving DecidableEq

/-- The `Role` class.  `rawPermissions` and `permissions` are array ids
into the store; `inherits` holds the parent role objects, which makes the
type a nested inductive. -/
inductive Role : Type where
  | mk : (id name slug : String) → (type : RoleType) →
      (rawPermissions permissions : Nat) → (inherits : List Role) →
      (pointBoost : Int) → Role

def Role.id : Role → String
  | .mk i _ _ _ _ _ _ _ => i

def Role.name : Role → String
  | .mk _ n _ _ _ _ _ _ => n

def Role.slug : Role → String
  | .mk _ _ s _ _ _ _ _ => s

def Role.type : Role → RoleType
  | .mk _ _ _ t _ _ _ _ => t

def Role.rawPermissions : Role → Nat
  | .mk _ _ _ _ r _ _ _ => r

def Role.permissions : Role → Nat
  | .mk _ _ _ _ _ p _ _ => p

def Role.inherits : Role → List Role
  | .mk _ _ _ _ _ _ l _ => l

def Role.pointBoost : Role → Int
  | .mk _ _ _ _ _ _ _ b => b

/-- The `UserRole` argument object of the constructor; `permissions` is
the id of the caller-supplied permission array. -/
structure UserRole : Type where
  id : String
  name : String
  type : RoleType
  permissions : Nat
  inherits : List Role := []
  boost : Int := 0

/-- The inheritance loop of the constructor:
`inherits.forEach(inherit => this.permissions = union(this.permissions,
inherit.permissions))`.  Each `union` call reads both current arrays and
allocates a fresh result array. -/
def buildPerms (h : Heap) (permsId : Nat) : List Role → Heap × Nat
  | [] => (h, permsId)
  | parent :: rest =>
    let hn := h.alloc (lunion (h.deref permsId) (h.deref parent.permissions))
    buildPerms hn.1 hn.2 rest

/-- The constructor: fields are assigned (`permissions` and
`rawPermissions` receive the same array reference), the slug is derived
from the name, then the inheritance loop re-points `permissions` at the
union arrays it allocates. -/
def Role.construct (h : Heap) (u : UserRole) : Heap × Role :=
  let built := buildPerms h u.permissions u.inherits
  (built.1,
    .mk u.id u.name (kebabCase u.name) u.type u.permissions built.2
      u.inherits u.boost)

/-- The wildcard scan of `has`: for each entry, split on `:`; if the
segments include `"*"`, immediately return the regex test built from all
segments but the last, joined by `:`. -/
def hasScan : List String → String → Option Bool
  | [], _ => some false
  | e :: rest, p =>
    let perm := splitColon e
    if perm.contains "*" then jsTestCI (joinColon perm.dropLast) p
    else hasScan rest p

/-- `Role.has`: an exact `includes` check, then the wildcard scan.  The
`Option` result models the `SyntaxError` a malformed generated pattern
would throw (`none`); all well-formed executions are `some`. -/
def Role.has (h : Heap) (r : Role) (p : String) : Option Bool :=
  let permissions := h.deref r.permissions
  if permissions.contains p then some true
  else hasScan permissions p

/-- The linear search loop of `hasInRaw` (`===` comparison). -/
def linearSearch : List String → String → Bool
  | [], _ => false
  | x :: xs, p => if x = p then true else linearSearch xs p

/-- `Role.hasInRaw`: exact linear search over the raw permission array. -/
def Role.hasInRaw (h : Heap) (r : Role) (p : String) : Bool :=
  linearSearch (h.deref r.rawPermissions) p

/-- `Role.set`: re-point the `permissions` field at the caller's array;
no array is touched, so the store is returned unchanged. -/
def Role.set (h : Heap) (r : Role) (psId : Nat) : Heap × Role :=
  (h, .mk r.id r.name r.slug r.type r.rawPermissions psId r.inherits
        r.pointBoost)

/-- `Role.add`: if the permission is absent, `push` it onto the current
permission array in place; the role object itself is unchanged. -/
def Role.add (h : Heap) (r : Role) (p : String) : Heap :=
  let perms := h.deref r.permissions
  if perms.contains p then h else h.write r.permissions (perms ++ [p])

/-- `Role.remove`: `filter` allocates a fresh array without the removed
permission and the field is re-pointed at it. -/
def Role.remove (h : Heap) (r : Role) (p : String) : Heap × Role :=
  let hn := h.alloc ((h.deref r.permissions).filter (fun q => q != p))
  (hn.1,
    .mk r.id r.name r.slug r.type r.rawPermissions hn.2 r.inherits
      r.pointBoost)

/-- `Role.setBoost`: overwrite the boost, returning the new value. -/
def Role.setBoost (r : Role) (b : Int) : Role × Int :=
  (.mk r.id r.name r.slug r.type r.rawPermissions r.permissions r.inherits b,
    b)

/-- `Role.getPerms` accessor. -/
def Role.getPerms (h : Heap) (r : Role) : List String := h.deref r.permissions

/-- A concrete role value for ground instances. -/
def mkRole (raw perms : Nat) (inh : List Role) : Role :=
  .mk "role-id" "Role" "role" RoleType.custom raw perms inh 0

/-- A concrete constructor argument for ground instances. -/
def mkUser (permsId : Nat) (inh : List Role) : UserRole :=
  { id := "role-id", name := "Role", type := RoleType.custom,
    permissions := permsId, inherits := inh }

/-! ### The specification's matcher, for refinement comparison

The spec describes `has` differently from the source: an entry is a
wildcard entry when its *last* segment is `"*"`, and the test is whether
the queried permission *starts with* the prefix.  These definitions follow
the spec's words and are compared against the code model. -/

/-- Follows the spec's words: an entry whose last colon segment is the
wildcard marker. -/
def specWildcard (e : String) : Bool := (splitColon e).getLast? = some "*"

/-- Follows the spec's words: the matcher built from all segments except
the wildcard marker, joined by `:`. -/
def specStem (e : String) : String := joinColon (splitColon e).dropLast

/-- Case-insensitive starts-with test, as the spec describes it. -/
def startsWithCI (pre s : String) : Bool :=
  (lcList pre.data).isPrefixOf (lcList s.data)

/-- Follows the spec's words: exact membership, else the first entry whose
last segment is the wildcard marker decides via a case-insensitive prefix
test, else false. -/
def specHas (perms : List String) (p : String) : Bool :=
  if perms.contains p then true
  else
    match perms.find? specWildcard with
    | some e => startsWithCI (specStem e) p
    | none => false

/-- The wildcard classification actually applied by `has`: the colon
segments include an exact `"*"` segment (not necessarily the last one). -/
def wildcardEntry (e : String) : Bool := (splitColon e).contains "*"

/-- The pattern body `has` builds for a wildcard entry: all segments but
the last (lodash `dropRight(perm, 1)`), joined by `:`. -/
def entryPattern (e : String) : String := joinColon (splitColon e).dropLast
/-! ### Generic list lemmas used by the heap model -/

theorem getD_append_of_lt {α : Type} (l l' : List α) (d : α) (n : Nat)
    (h : n < l.length) : (l ++ l').getD n d = l.getD n d := by
  induction l generalizing n with
  | nil => simp at h
  | cons a t ih =>
    cases n with
    | zero => rfl
    | succ m => exact ih m (by simpa using h)

theorem getD_append_len {α : Type} (l : List α) (x d : α) :
    (l ++ [x]).getD l.length d = x := by
  induction l with
  | nil => rfl
  | cons a t ih => simp [ih]

theorem getD_set_ne {α : Type} (l : List α) (i j : Nat) (x d : α)
    (h : i ≠ j) : (l.set i x).getD j d = l.getD j d := by
  induction l generalizing i j with
  | nil => rfl
  | cons a t ih =>
    cases i with
    | zero =>
      cases j with
      | zero => exact absurd rfl h
      | succ m => rfl
    | succ k =>
      cases j with
      | zero => rfl
      | succ m => exact ih k m (by intro hkm; exact h (by simp [hkm]))

theorem getD_set_self {α : Type} (l : List α) (i : Nat) (x d : α)
    (h : i < l.length) : (l.set i x).getD i d = x := by
  induction l generalizing i with
  | nil => simp at h
  | cons a t ih =>
    cases i with
    | zero => rfl
    | succ m => exact ih m (by simpa using h)


/-! ### Helper lemmas -/

theorem any_congr' {α : Type} {l : List α} {f g : α → Bool}
    (h : ∀ x ∈ l, f x = g x) : l.any f = l.any g := by
  induction l with
  | nil => rfl
  | cons a t ih =>
    simp only [List.any_cons]
    rw [h a (List.mem_cons_self a t),
      ih fun x hx => h x (List.mem_cons_of_mem a hx)]

theorem linearSearch_iff {l : List String} {p : String} :
    linearSearch l p = true ↔ p ∈ l := by
  induction l with
  | nil => simp [linearSearch]
  | cons x xs ih =>
    simp only [linearSearch, List.mem_cons]
    by_cases hx : x = p
    · simp [hx]
    · rw [if_neg hx, ih]
      constructor
      · exact fun h => Or.inr h
      · rintro (h | h)
        · exact absurd h.symm hx
        · exact h

theorem mem_uniqAux {x : String} : ∀ (l seen : List String),
    x ∈ uniqAux l seen ↔ x ∈ l ∧ x ∉ seen := by
  intro l
  induction l with
  | nil => intro seen; simp [uniqAux]
  | cons a t ih =>
    intro seen
    by_cases ha : a ∈ seen
    · rw [uniqAux, if_pos ha, ih]
      constructor
      · exact fun h => ⟨List.mem_cons_of_mem a h.1, h.2⟩
      · rintro ⟨h1, h2⟩
        rcases List.mem_cons.mp h1 with h | h
        · subst h; exact absurd ha h2
        · exact ⟨h, h2⟩
    · rw [uniqAux, if_neg ha]
      simp only [List.mem_cons, ih, List.mem_cons]
      by_cases hxa : x = a
      · subst hxa; simp [ha]
      · simp [hxa]

theorem nodup_uniqAux : ∀ (l seen : List String), (uniqAux l seen).Nodup := by
  intro l
  induction l with
  | nil => intro seen; simp [uniqAux]
  | cons a t ih =>
    intro seen
    by_cases ha : a ∈ seen
    · rw [uniqAux, if_pos ha]; exact ih seen
    · rw [uniqAux, if_neg ha]
      refine List.nodup_cons.mpr ⟨?_, ih (a :: seen)⟩
      intro hmem
      exact ((mem_uniqAux t (a :: seen)).mp hmem).2 (List.mem_cons_self a seen)

theorem mem_lunion {x : String} {a b : List String} :
    x ∈ lunion a b ↔ x ∈ a ∨ x ∈ b := by
  rw [lunion, uniq, mem_uniqAux]
  simp

theorem nodup_lunion (a b : List String) : (lunion a b).Nodup :=
  nodup_uniqAux _ _

theorem buildPerms_nil (h : Heap) (pid : Nat) : buildPerms h pid [] = (h, pid) :=
  rfl

theorem buildPerms_step (h : Heap) (pid : Nat) (P : Role) (rest : List Role) :
    buildPerms h pid (P :: rest) =
      buildPerms ⟨h.arrays ++ [lunion (h.deref pid) (h.deref P.permissions)]⟩
        h.arrays.length rest := rfl

theorem buildPerms_arrays : ∀ (ps : List Role) (h : Heap) (pid : Nat),
    ∃ ext, (buildPerms h pid ps).1.arrays = h.arrays ++ ext := by
  intro ps
  induction ps with
  | nil => intro h pid; exact ⟨[], by simp [buildPerms_nil]⟩
  | cons P rest ih =>
    intro h pid
    rw [buildPerms_step]
    obtain ⟨ext, hext⟩ :=
      ih ⟨h.arrays ++ [lunion (h.deref pid) (h.deref P.permissions)]⟩
        h.arrays.length
    exact ⟨lunion (h.deref pid) (h.deref P.permissions) :: ext, by
      rw [hext]; simp⟩

theorem buildPerms_len_le (ps : List Role) (h : Heap) (pid : Nat) :
    h.arrays.length ≤ (buildPerms h pid ps).1.arrays.length := by
  obtain ⟨ext, hext⟩ := buildPerms_arrays ps h pid
  simp [hext]

theorem buildPerms_deref (ps : List Role) (h : Heap) (pid n : Nat)
    (hn : n < h.arrays.length) :
    (buildPerms h pid ps).1.deref n = h.deref n := by
  obtain ⟨ext, hext⟩ := buildPerms_arrays ps h pid
  simp only [Heap.deref, hext]
  exact getD_append_of_lt _ _ _ _ hn

theorem buildPerms_valid : ∀ (ps : List Role) (h : Heap) (pid : Nat),
    pid < h.arrays.length →
    (buildPerms h pid ps).2 < (buildPerms h pid ps).1.arrays.length := by
  intro ps
  induction ps with
  | nil => intro h pid hpid; exact hpid
  | cons P rest ih =>
    intro h pid hpid
    rw [buildPerms_step]
    exact ih _ _ (by simp)

theorem buildPerms_ge : ∀ (ps : List Role) (h : Heap) (pid : Nat), ps ≠ [] →
    h.arrays.length ≤ (buildPerms h pid ps).2 := by
  intro ps
  induction ps with
  | nil => intro h pid hne; exact absurd rfl hne
  | cons P rest ih =>
    intro h pid _
    rw [buildPerms_step]
    by_cases hr : rest = []
    · subst hr; rw [buildPerms_nil]
    · refine le_trans ?_ (ih _ _ hr)
      simp

theorem buildPerms_mem : ∀ (ps : List Role) (h : Heap) (pid : Nat)
    (x : String), pid < h.arrays.length →
    (∀ P ∈ ps, P.permissions < h.arrays.length) →
    (x ∈ h.deref pid ∨ ∃ P ∈ ps, x ∈ h.deref P.permissions) →
    x ∈ (buildPerms h pid ps).1.deref (buildPerms h pid ps).2 := by
  intro ps
  induction ps with
  | nil =>
    intro h pid x _ _ hx
    rcases hx with hx | ⟨P, hP, _⟩
    · exact hx
    · exact absurd hP (List.not_mem_nil P)
  | cons P rest ih =>
    intro h pid x hpid hPs hx
    rw [buildPerms_step]
    have hderefL :
        Heap.deref ⟨h.arrays ++ [lunion (h.deref pid) (h.deref P.permissions)]⟩
          h.arrays.length = lunion (h.deref pid) (h.deref P.permissions) := by
      simp only [Heap.deref]
      exact getD_append_len _ _ _
    apply ih
    · simp
    · intro Q hQ
      have := hPs Q (List.mem_cons_of_mem _ hQ)
      simp only [List.length_append, List.length_cons, List.length_nil]
      omega
    · rcases hx with hx | ⟨Q, hQ, hxQ⟩
      · left
        rw [hderefL, mem_lunion]
        exact Or.inl hx
      · rcases List.mem_cons.mp hQ with hQP | hQr
        · left
          rw [hderefL, mem_lunion]
          subst hQP
          exact Or.inr hxQ
        · right
          refine ⟨Q, hQr, ?_⟩
          have hQv := hPs Q (List.mem_cons_of_mem _ hQr)
          simp only [Heap.deref]
          rw [getD_append_of_lt _ _ _ _ hQv]
          exact hxQ

theorem buildPerms_nodup : ∀ (ps : List Role) (h : Heap) (pid : Nat),
    ((h.deref pid).Nodup ∨ ps ≠ []) →
    ((buildPerms h pid ps).1.deref (buildPerms h pid ps).2).Nodup := by
  intro ps
  induction ps with
  | nil =>
    intro h pid hnd
    rcases hnd with hnd | hne
    · exact hnd
    · exact absurd rfl hne
  | cons P rest ih =>
    intro h pid _
    rw [buildPerms_step]
    apply ih
    left
    have : Heap.deref ⟨h.arrays ++ [lunion (h.deref pid) (h.deref P.permissions)]⟩
        h.arrays.length = lunion (h.deref pid) (h.deref P.permissions) := by
      simp only [Heap.deref]
      exact getD_append_len _ _ _
    rw [this]
    exact nodup_lunion _ _

theorem construct_heap (h : Heap) (u : UserRole) :
    (Role.construct h u).1 = (buildPerms h u.permissions u.inherits).1 := rfl

theorem construct_perms (h : Heap) (u : UserRole) :
    (Role.construct h u).2.permissions =
      (buildPerms h u.permissions u.inherits).2 := rfl

theorem construct_raw (h : Heap) (u : UserRole) :
    (Role.construct h u).2.rawPermissions = u.permissions := rfl

theorem hasScan_cons (e : String) (rest : List String) (p : String) :
    hasScan (e :: rest) p =
      if wildcardEntry e then jsTestCI (entryPattern e) p
      else hasScan rest p := rfl

theorem hasScan_append (pre l : List String) (p : String)
    (hpre : ∀ e ∈ pre, wildcardEntry e = false) :
    hasScan (pre ++ l) p = hasScan l p := by
  induction pre with
  | nil => rfl
  | cons e t ih =>
    rw [List.cons_append, hasScan_cons,
      if_neg (by simp [hpre e (List.mem_cons_self e t)]),
      ih fun e' he' => hpre e' (List.mem_cons_of_mem _ he')]

theorem hasScan_clean (l : List String) (p : String)
    (hl : ∀ e ∈ l, wildcardEntry e = false) : hasScan l p = some false := by
  induction l with
  | nil => rfl
  | cons e t ih =>
    rw [hasScan_cons, if_neg (by simp [hl e (List.mem_cons_self e t)])]
    exact ih fun e' he' => hl e' (List.mem_cons_of_mem _ he')

theorem has_of_mem (h : Heap) (r : Role) (p : String)
    (hmem : p ∈ h.deref r.permissions) : Role.has h r p = some true := by
  simp only [Role.has]
  rw [if_pos (List.elem_iff.mpr hmem)]

theorem has_eq_scan (h : Heap) (r : Role) (p : String)
    (hmem : p ∉ h.deref r.permissions) :
    Role.has h r p = hasScan (h.deref r.permissions) p := by
  simp only [Role.has]
  rw [if_neg fun hc => hmem (List.elem_iff.mp hc)]

theorem parseBodyAux_literal : ∀ (cs : List Char) (acc : List RPiece),
    (∀ c ∈ cs, regexLiteralChar c = true) →
    parseBodyAux acc cs =
      some (acc.reverse ++ cs.map fun c => ⟨RAtom.lit c, false⟩) := by
  intro cs
  induction cs with
  | nil => intro acc _; simp [parseBodyAux]
  | cons c t ih =>
    intro acc hc
    have hl := hc c (List.mem_cons_self c t)
    simp only [regexLiteralChar, Bool.not_eq_true', Bool.or_eq_false_iff,
      decide_eq_false_iff_not] at hl
    obtain ⟨⟨h1, h2⟩, h3⟩ := hl
    simp only [parseBodyAux]
    rw [if_neg h1, if_neg h2, if_neg (by simp [h3]),
      ih _ fun c' hc' => hc c' (List.mem_cons_of_mem _ hc')]
    simp

theorem matchesHere_lit : ∀ (pat cs : List Char),
    matchesHere (pat.map fun c => ⟨RAtom.lit c, false⟩) cs
      = (lcList pat).isPrefixOf (lcList cs) := by
  intro pat
  induction pat with
  | nil => intro cs; simp [matchesHere, lcList, List.isPrefixOf]
  | cons a t ih =>
    intro cs
    cases cs with
    | nil => rfl
    | cons c cs' =>
      by_cases hac : lcChar a = lcChar c
      · simp [matchesHere, pieceSuffixes, atomMatch, hac, lcList,
          List.isPrefixOf, ih cs']
      · simp [matchesHere, pieceSuffixes, atomMatch, hac, lcList,
          List.isPrefixOf]

theorem starSuffixes_ne_nil (a : RAtom) (cs : List Char) :
    starSuffixes a cs ≠ [] := by
  cases cs <;> simp [starSuffixes]

theorem matchesHere_dotstar : ∀ (ps : List RPiece) (cs : List Char),
    matchesHere (ps ++ [⟨RAtom.dot, true⟩]) cs = matchesHere ps cs := by
  intro ps
  induction ps with
  | nil =>
    intro cs
    simp only [List.nil_append, matchesHere, pieceSuffixes]
    cases cs <;> simp [starSuffixes]
  | cons p t ih =>
    intro cs
    simp only [List.cons_append, matchesHere]
    exact any_congr' fun x _ => ih x

theorem searchFrom_lit (w : List Char) : ∀ (cs : List Char),
    searchFrom ((w.map fun c => ⟨RAtom.lit c, false⟩) ++ [⟨RAtom.dot, true⟩]) cs
      = ciOccurs w cs := by
  intro cs
  induction cs with
  | nil =>
    simp [searchFrom, ciOccurs, matchesHere_dotstar, matchesHere_lit, lcList]
  | cons c cs' ih =>
    simp [searchFrom, ciOccurs, matchesHere_dotstar, matchesHere_lit, ih]

theorem jsTestCI_literal (w p : String) (hw : regexSafe w = true) :
    jsTestCI w p = some (ciSubstring w p) := by
  have hparse : parseBody w.data =
      some (w.data.map fun c => ⟨RAtom.lit c, false⟩) :=
    parseBodyAux_literal w.data [] fun c hc => List.all_eq_true.mp hw c hc
  rw [jsTestCI, hparse]
  show some (searchFrom ((w.data.map fun c => ⟨RAtom.lit c, false⟩) ++
    [⟨RAtom.dot, true⟩]) p.data) = some (ciSubstring w p)
  rw [searchFrom_lit]
  rfl

/-! ### Claims -/

/-- C1 counterexample: with effective permissions `["channel:*"]` the first
(and only) entry whose last segment is the wildcard marker is
`"channel:*"`; the spec's prefix test fails on `"mychannel:x"`, so the
claim makes `has` return false, yet the code returns true — the generated
regex is unanchored and finds `channel` in the middle of the string, so the
first wildcard entry's prefix test does not determine the result the way
the claim states. -/
theorem c1_counterexample :
    specWildcard "channel:*" = true
    ∧ startsWithCI "channel" "mychannel:x" = false
    ∧ specHas ["channel:*"] "mychannel:x" = false
    ∧ Role.has ⟨[["channel:*"]]⟩ (mkRole 0 0 []) "mychannel:x" = some true := by
  decide

/-- C1 (amended): for a queried permission with no exact match, the first
entry whose colon segments include a `"*"` segment alone determines the
result of `has`: the call returns exactly that entry's pattern-test
outcome and never consults later entries, so in particular a failing test
short-circuits the whole call. -/
theorem c1_first_wildcard_decides (h : Heap) (r : Role) (p e : String)
    (pre rest : List String)
    (hperm : h.deref r.permissions = pre ++ e :: rest)
    (hpre : ∀ e' ∈ pre, wildcardEntry e' = false)
    (he : wildcardEntry e = true)
    (hmem : p ∉ h.deref r.permissions) :
    Role.has h r p = jsTestCI (entryPattern e) p := by
  rw [has_eq_scan h r p hmem, hperm, hasScan_append pre _ p hpre,
    hasScan_cons, if_pos he]

/-- C1 witness: the spec's own example — effective permissions
`["user:*", "channel:*"]` and query `"channel:quote:delete"`: the first
wildcard entry decides, its test fails, and `has` is false. -/
theorem c1_witness :
    Role.has ⟨[["user:*", "channel:*"]]⟩ (mkRole 0 0 [])
      "channel:quote:delete" = some false := by
  rw [c1_first_wildcard_decides ⟨[["user:*", "channel:*"]]⟩ (mkRole 0 0 [])
    "channel:quote:delete" "user:*" [] ["channel:*"] (by decide) (by decide)
    (by decide) (by decide)]
  decide

/-- C2 counterexample: the entry `"a:*:b"` has last segment `"b"`, so under
the claim it is not a wildcard entry and `has "a:zz"` (no exact match, no
other entries) must be false; the code classifies it as a wildcard entry
because SOME segment is `"*"`, and returns true. -/
theorem c2_counterexample :
    specWildcard "a:*:b" = false
    ∧ specHas ["a:*:b"] "a:zz" = false
    ∧ Role.has ⟨[["a:*:b"]]⟩ (mkRole 0 0 []) "a:zz" = some true := by
  decide

/-- C2 (amended): an entry is treated as a wildcard entry iff SOME colon
segment equals `"*"` (not necessarily the last); a non-wildcard entry is
skipped by the scan, and for a wildcard entry whose pattern body (all
segments but the last, joined by `:`) is free of regex metacharacters the
applied test is a case-insensitive SUBSTRING search of that body anywhere
inside the queried permission, not an anchored starts-with test. -/
theorem c2_wildcard_semantics (e p : String) (rest : List String)
    (hsafe : regexSafe (entryPattern e) = true) :
    (wildcardEntry e = false → hasScan (e :: rest) p = hasScan rest p)
    ∧ (wildcardEntry e = true →
        hasScan (e :: rest) p = some (ciSubstring (entryPattern e) p)) := by
  constructor
  · intro hw
    rw [hasScan_cons, if_neg (by simp [hw])]
  · intro hw
    rw [hasScan_cons, if_pos hw, jsTestCI_literal _ _ hsafe]

/-- C2 witness: `["channel:*"]` matches `"mychannel:x"` because `channel`
occurs inside it, case-insensitively. -/
theorem c2_witness :
    hasScan ["channel:*"] "mychannel:x" = some true
    ∧ ciSubstring "channel" "mychannel:x" = true := by
  constructor
  · rw [(c2_wildcard_semantics "channel:*" "mychannel:x" []
      (by decide)).2 (by decide)]
    decide
  · decide

/-- C3: a permission that is literally an entry of the current effective
permissions makes `has` return true, whatever wildcard entries are present
and wherever they sit in the list. -/
theorem c3_exact_match (h : Heap) (r : Role) (p : String)
    (hmem : p ∈ h.deref r.permissions) : Role.has h r p = some true :=
  has_of_mem h r p hmem

/-- C3 witness: `"x"` is an exact entry even with a failing wildcard entry
listed first. -/
theorem c3_witness :
    Role.has ⟨[["user:*", "x"]]⟩ (mkRole 0 0 []) "x" = some true :=
  c3_exact_match ⟨[["user:*", "x"]]⟩ (mkRole 0 0 []) "x" (by decide)

/-- C4 counterexample: for a role constructed with no parents,
`effectivePermissions` is the very array `rawPermissions` refers to (no
copy is made), so `add` extends the raw permissions too: after `add "b"`
on a role constructed from `["a"]`, `hasInRaw "b"` flips from false to
true — `rawPermissions` is not immutable after construction. -/
theorem c4_counterexample :
    Role.hasInRaw (Role.construct ⟨[["a"]]⟩ (mkUser 0 [])).1
        (Role.construct ⟨[["a"]]⟩ (mkUser 0 [])).2 "b" = false
    ∧ Role.hasInRaw
        (Role.add (Role.construct ⟨[["a"]]⟩ (mkUser 0 [])).1
          (Role.construct ⟨[["a"]]⟩ (mkUser 0 [])).2 "b")
        (Role.construct ⟨[["a"]]⟩ (mkUser 0 [])).2 "b" = true := by
  decide

/-- C4 (amended): `effectivePermissions` is initialised to `rawPermissions`
ITSELF, not a copy — with no parents the two fields hold the same array,
while at least one parent forces a fresh union array.  `set`, `setBoost`
and `remove` never change the raw array, and `add` leaves the raw array
(and every `hasInRaw` answer) unchanged exactly when `effectivePermissions`
no longer aliases it; through the shared array of a parent-less role `add`
does mutate `rawPermissions` (the counterexample). -/
theorem c4_raw_mutability (h : Heap) (u₀ u₁ : UserRole) (r : Role)
    (p q : String) (psId : Nat) (b : Int)
    (h0 : u₀.inherits = [])
    (h1 : u₁.inherits ≠ []) (h1v : u₁.permissions < h.arrays.length)
    (hsep : r.permissions ≠ r.rawPermissions)
    (hrv : r.rawPermissions < h.arrays.length) :
    (Role.construct h u₀).2.permissions = (Role.construct h u₀).2.rawPermissions
    ∧ (Role.construct h u₁).2.permissions ≠ (Role.construct h u₁).2.rawPermissions
    ∧ (Role.set h r psId).1 = h
    ∧ (Role.set h r psId).2.rawPermissions = r.rawPermissions
    ∧ (Role.setBoost r b).1.rawPermissions = r.rawPermissions
    ∧ (Role.remove h r p).2.rawPermissions = r.rawPermissions
    ∧ (Role.remove h r p).1.deref r.rawPermissions = h.deref r.rawPermissions
    ∧ (Role.add h r p).deref r.rawPermissions = h.deref r.rawPermissions
    ∧ Role.hasInRaw (Role.add h r p) r q = Role.hasInRaw h r q := by
  have hadd : (Role.add h r p).deref r.rawPermissions
      = h.deref r.rawPermissions := by
    by_cases hc : (h.deref r.permissions).contains p
    · have he : Role.add h r p = h := by
        simp only [Role.add]; rw [if_pos hc]
      rw [he]
    · have he : Role.add h r p
          = h.write r.permissions (h.deref r.permissions ++ [p]) := by
        simp only [Role.add]; rw [if_neg hc]
      rw [he]
      simp only [Heap.write, Heap.deref]
      exact getD_set_ne _ _ _ _ _ hsep
  refine ⟨?_, ?_, rfl, rfl, rfl, rfl, ?_, hadd, ?_⟩
  · rw [construct_perms, construct_raw, h0, buildPerms_nil]
  · rw [construct_perms, construct_raw]
    have := buildPerms_ge u₁.inherits h u₁.permissions h1
    omega
  · simp only [Role.remove, Role.rawPermissions, Heap.alloc, Heap.deref]
    exact getD_append_of_lt _ _ _ _ hrv
  · rw [Role.hasInRaw, Role.hasInRaw, hadd]

/-- C4 witness: a parent-less role aliases the two fields, a role with one
parent does not, and `add` on a non-aliased role leaves `hasInRaw`
untouched. -/
theorem c4_witness :
    ((Role.construct ⟨[["a"], ["b"]]⟩ (mkUser 0 [])).2.permissions
      = (Role.construct ⟨[["a"], ["b"]]⟩ (mkUser 0 [])).2.rawPermissions)
    ∧ ((Role.construct ⟨[["a"], ["b"]]⟩
          (mkUser 0 [mkRole 1 1 []])).2.permissions
        ≠ (Role.construct ⟨[["a"], ["b"]]⟩
            (mkUser 0 [mkRole 1 1 []])).2.rawPermissions)
    ∧ Role.hasInRaw (Role.add ⟨[["a"], ["b"]]⟩ (mkRole 0 1 []) "x")
        (mkRole 0 1 []) "y"
      = Role.hasInRaw ⟨[["a"], ["b"]]⟩ (mkRole 0 1 []) "y" := by
  have full := c4_raw_mutability ⟨[["a"], ["b"]]⟩ (mkUser 0 [])
    (mkUser 0 [mkRole 1 1 []]) (mkRole 0 1 []) "x" "y" 5 2 rfl
    (List.cons_ne_nil _ _) (by decide) (by decide) (by decide)
  exact ⟨full.1, full.2.1, full.2.2.2.2.2.2.2.2⟩

/-- C5: construction postcondition — with no parents the effective
permissions are exactly the raw array's contents; in general the effective
permissions contain every raw permission and every permission of every
parent's effective list as read at construction time. -/
theorem c5_construct_superset (h : Heap) (u : UserRole)
    (hval : u.permissions < h.arrays.length)
    (hinval : ∀ P ∈ u.inherits, P.permissions < h.arrays.length) :
    (u.inherits = [] →
      (Role.construct h u).1.deref (Role.construct h u).2.permissions
        = h.deref u.permissions)
    ∧ (∀ x ∈ (Role.construct h u).1.deref
          (Role.construct h u).2.rawPermissions,
        x ∈ (Role.construct h u).1.deref (Role.construct h u).2.permissions)
    ∧ (∀ P ∈ u.inherits, ∀ x ∈ h.deref P.permissions,
        x ∈ (Role.construct h u).1.deref
          (Role.construct h u).2.permissions) := by
  have hraw : (Role.construct h u).1.deref
      (Role.construct h u).2.rawPermissions = h.deref u.permissions := by
    rw [construct_heap, construct_raw]
    exact buildPerms_deref _ _ _ _ hval
  refine ⟨?_, ?_, ?_⟩
  · intro hnil
    rw [construct_heap, construct_perms, hnil, buildPerms_nil]
  · intro x hx
    rw [hraw] at hx
    rw [construct_heap, construct_perms]
    exact buildPerms_mem _ _ _ _ hval hinval (Or.inl hx)
  · intro P hP x hx
    rw [construct_heap, construct_perms]
    exact buildPerms_mem _ _ _ _ hval hinval (Or.inr ⟨P, hP, hx⟩)

/-- C5 witness: a role constructed from `["a"]` with a parent whose
effective permissions are `["x"]` ends up with both `"a"` and `"x"`
effective. -/
theorem c5_witness :
    "a" ∈ (Role.construct ⟨[["a"], ["x"]]⟩
        (mkUser 0 [mkRole 1 1 []])).1.deref
        (Role.construct ⟨[["a"], ["x"]]⟩
          (mkUser 0 [mkRole 1 1 []])).2.permissions
    ∧ "x" ∈ (Role.construct ⟨[["a"], ["x"]]⟩
        (mkUser 0 [mkRole 1 1 []])).1.deref
        (Role.construct ⟨[["a"], ["x"]]⟩
          (mkUser 0 [mkRole 1 1 []])).2.permissions := by
  have full := c5_construct_superset ⟨[["a"], ["x"]]⟩
    (mkUser 0 [mkRole 1 1 []]) (by decide) (by decide)
  exact ⟨full.2.1 "a" (by decide),
    full.2.2 (mkRole 1 1 []) (List.mem_cons_self _ _) "x" (by decide)⟩

/-- C6 counterexample: a role constructed with the duplicate-containing
raw list `["a", "a"]` and no parents keeps the duplicate in
`effectivePermissions`, so the no-duplicates invariant does not hold after
every construction. -/
theorem c6_counterexample :
    ¬ ((Role.construct ⟨[["a", "a"]]⟩ (mkUser 0 [])).1.deref
        (Role.construct ⟨[["a", "a"]]⟩ (mkUser 0 [])).2.permissions).Nodup := by
  decide

/-- C6 (amended): the effective permissions are duplicate-free after
construction whenever the supplied raw list is duplicate-free or at least
one parent is inherited (the lodash union de-duplicates everything it
touches); `add` and `remove` preserve freedom from duplicates; `set`
installs the caller's array verbatim, so after `set` the invariant holds
exactly when that array is duplicate-free. -/
theorem c6_nodup (h : Heap) (u : UserRole) (r : Role) (p : String)
    (psId : Nat)
    (hnd : (h.deref u.permissions).Nodup ∨ u.inherits ≠ [])
    (hrnd : (h.deref r.permissions).Nodup)
    (hrv : r.permissions < h.arrays.length) :
    ((Role.construct h u).1.deref (Role.construct h u).2.permissions).Nodup
    ∧ ((Role.add h r p).deref r.permissions).Nodup
    ∧ ((Role.remove h r p).1.deref (Role.remove h r p).2.permissions).Nodup
    ∧ (Role.set h r psId).2.permissions = psId := by
  refine ⟨?_, ?_, ?_, rfl⟩
  · rw [construct_heap, construct_perms]
    exact buildPerms_nodup _ _ _ hnd
  · by_cases hc : (h.deref r.permissions).contains p
    · have he : Role.add h r p = h := by
        simp only [Role.add]; rw [if_pos hc]
      rw [he]; exact hrnd
    · have he : Role.add h r p
          = h.write r.permissions (h.deref r.permissions ++ [p]) := by
        simp only [Role.add]; rw [if_neg hc]
      rw [he]
      simp only [Heap.write, Heap.deref]
      rw [getD_set_self _ _ _ _ hrv]
      have hp : p ∉ h.deref r.permissions := fun hm => hc (List.elem_iff.mpr hm)
      simp only [List.nodup_append]
      exact ⟨hrnd, List.nodup_singleton p, List.disjoint_singleton.mpr hp⟩
  · simp only [Role.remove, Role.permissions, Heap.alloc, Heap.deref]
    rw [getD_append_len]
    exact hrnd.filter _

/-- C6 witness: duplicate-free construction and a duplicate-free `add`. -/
theorem c6_witness :
    ((Role.construct ⟨[["a"]]⟩ (mkUser 0 [])).1.deref
        (Role.construct ⟨[["a"]]⟩ (mkUser 0 [])).2.permissions).Nodup
    ∧ ((Role.add ⟨[["a"]]⟩ (mkRole 0 0 []) "b").deref 0).Nodup := by
  have full := c6_nodup ⟨[["a"]]⟩ (mkUser 0 []) (mkRole 0 0 []) "b" 7
    (Or.inl (by decide)) (by decide) (by decide)
  exact ⟨full.1, full.2.1⟩

/-- C7: `hasInRaw` answers true iff the literal string is present in the
raw array (no wildcard expansion, no inheritance); a role inheriting `p`
from a parent without declaring it itself answers false to `hasInRaw p`
while `has p` is true. -/
theorem c7_hasInRaw (h : Heap) (r : Role) (p : String) (u : UserRole)
    (P : Role)
    (hval : u.permissions < h.arrays.length)
    (hinval : ∀ Q ∈ u.inherits, Q.permissions < h.arrays.length)
    (hP : P ∈ u.inherits)
    (hPmem : p ∈ h.deref P.permissions)
    (hraw : p ∉ h.deref u.permissions) :
    (Role.hasInRaw h r p = true ↔ p ∈ h.deref r.rawPermissions)
    ∧ Role.hasInRaw (Role.construct h u).1 (Role.construct h u).2 p = false
    ∧ Role.has (Role.construct h u).1 (Role.construct h u).2 p
        = some true := by
  refine ⟨linearSearch_iff, ?_, ?_⟩
  · rw [Role.hasInRaw, construct_heap, construct_raw,
      buildPerms_deref _ _ _ _ hval]
    cases hls : linearSearch (h.deref u.permissions) p
    · rfl
    · exact absurd (linearSearch_iff.mp hls) hraw
  · apply has_of_mem
    rw [construct_heap, construct_perms]
    exact buildPerms_mem _ _ _ _ hval hinval (Or.inr ⟨P, hP, hPmem⟩)

/-- C7 witness: a role with raw permissions `[]` inheriting `["x"]`. -/
theorem c7_witness :
    Role.hasInRaw (Role.construct ⟨[[], ["x"]]⟩
        (mkUser 0 [mkRole 1 1 []])).1
      (Role.construct ⟨[[], ["x"]]⟩ (mkUser 0 [mkRole 1 1 []])).2 "x" = false
    ∧ Role.has (Role.construct ⟨[[], ["x"]]⟩
        (mkUser 0 [mkRole 1 1 []])).1
      (Role.construct ⟨[[], ["x"]]⟩ (mkUser 0 [mkRole 1 1 []])).2 "x"
        = some true := by
  have full := c7_hasInRaw ⟨[[], ["x"]]⟩ (mkRole 0 0 []) "x"
    (mkUser 0 [mkRole 1 1 []]) (mkRole 1 1 []) (by decide) (by decide)
    (List.mem_cons_self _ _) (by decide) (by decide)
  exact ⟨full.2.1, full.2.2⟩

/-- C8 counterexample: with effective permissions
`["channel:*", "channel:x"]`, removing `"channel:x"` does not make
`has "channel:x"` false — the surviving wildcard entry still matches it,
so `has` returns true where the claim requires false. -/
theorem c8_counterexample :
    Role.has (Role.remove ⟨[["channel:*", "channel:x"]]⟩ (mkRole 0 0 [])
        "channel:x").1
      (Role.remove ⟨[["channel:*", "channel:x"]]⟩ (mkRole 0 0 [])
        "channel:x").2 "channel:x" = some true := by
  decide

/-- C8 (amended): after `add p`, `has p` is true; `add p` with `p` already
present leaves everything unchanged; `remove p` deletes every occurrence
of `p` from the effective permissions, so `has p` afterwards is false
PROVIDED no surviving entry is a wildcard entry — a surviving wildcard
entry may still match `p` (the counterexample). -/
theorem c8_add_remove (h : Heap) (r : Role) (p : String)
    (hval : r.permissions < h.arrays.length) :
    Role.has (Role.add h r p) r p = some true
    ∧ p ∉ (Role.remove h r p).1.deref (Role.remove h r p).2.permissions
    ∧ ((∀ e ∈ (Role.remove h r p).1.deref (Role.remove h r p).2.permissions,
          wildcardEntry e = false) →
        Role.has (Role.remove h r p).1 (Role.remove h r p).2 p = some false)
    ∧ ((h.deref r.permissions).contains p = true → Role.add h r p = h) := by
  have hrem : (Role.remove h r p).1.deref (Role.remove h r p).2.permissions
      = (h.deref r.permissions).filter (fun q => q != p) := by
    simp only [Role.remove, Role.permissions, Heap.alloc, Heap.deref]
    exact getD_append_len _ _ _
  have hnotin : p ∉ (Role.remove h r p).1.deref
      (Role.remove h r p).2.permissions := by
    rw [hrem]
    intro hm
    have := (List.mem_filter.mp hm).2
    simp at this
  refine ⟨?_, hnotin, ?_, ?_⟩
  · by_cases hc : (h.deref r.permissions).contains p
    · have he : Role.add h r p = h := by
        simp only [Role.add]; rw [if_pos hc]
      rw [he]
      exact has_of_mem _ _ _ (List.elem_iff.mp hc)
    · have he : Role.add h r p
          = h.write r.permissions (h.deref r.permissions ++ [p]) := by
        simp only [Role.add]; rw [if_neg hc]
      rw [he]
      apply has_of_mem
      simp only [Heap.write, Heap.deref]
      rw [getD_set_self _ _ _ _ hval]
      exact List.mem_append_right _ (List.mem_cons_self p [])
  · intro hclean
    rw [has_eq_scan _ _ _ hnotin]
    exact hasScan_clean _ _ hclean
  · intro hc
    simp only [Role.add]; rw [if_pos hc]

/-- C8 witness: on effective permissions `["a"]`, re-adding `"a"` is a
no-op with `has` true, and removing `"a"` drives `has` to false. -/
theorem c8_witness :
    Role.has (Role.add ⟨[["a"]]⟩ (mkRole 0 0 []) "a") (mkRole 0 0 []) "a"
      = some true
    ∧ Role.has (Role.remove ⟨[["a"]]⟩ (mkRole 0 0 []) "a").1
        (Role.remove ⟨[["a"]]⟩ (mkRole 0 0 []) "a").2 "a" = some false
    ∧ Role.add ⟨[["a"]]⟩ (mkRole 0 0 []) "a" = ⟨[["a"]]⟩ := by
  have full := c8_add_remove ⟨[["a"]]⟩ (mkRole 0 0 []) "a" (by decide)
  exact ⟨full.1, full.2.2.1 (by decide), full.2.2.2 (by decide)⟩

/-- C9: mutating a parent after a child was constructed (parent `add`,
`remove` or `set`) leaves the child's effective array, and hence every
child `has` answer, unchanged — the union happened once, eagerly, at
construction, and targeted a freshly allocated array. -/
theorem c9_parent_mutation_frame (h : Heap) (u : UserRole) (P : Role)
    (p q : String) (psId : Nat)
    (hval : u.permissions < h.arrays.length)
    (hP : P ∈ u.inherits)
    (hPval : P.permissions < h.arrays.length) :
    ((Role.add (Role.construct h u).1 P p).deref
        (Role.construct h u).2.permissions
      = (Role.construct h u).1.deref (Role.construct h u).2.permissions)
    ∧ (Role.has (Role.add (Role.construct h u).1 P p)
          (Role.construct h u).2 q
        = Role.has (Role.construct h u).1 (Role.construct h u).2 q)
    ∧ ((Role.remove (Role.construct h u).1 P p).1.deref
          (Role.construct h u).2.permissions
        = (Role.construct h u).1.deref (Role.construct h u).2.permissions)
    ∧ (Role.has (Role.remove (Role.construct h u).1 P p).1
          (Role.construct h u).2 q
        = Role.has (Role.construct h u).1 (Role.construct h u).2 q)
    ∧ (Role.set (Role.construct h u).1 P psId).1 = (Role.construct h u).1 := by
  have hinh : u.inherits ≠ [] := by
    intro hnil; rw [hnil] at hP; exact List.not_mem_nil P hP
  have hge : h.arrays.length ≤ (buildPerms h u.permissions u.inherits).2 :=
    buildPerms_ge _ _ _ hinh
  have hne : P.permissions ≠ (Role.construct h u).2.permissions := by
    rw [construct_perms]; omega
  have hcv : (Role.construct h u).2.permissions
      < (Role.construct h u).1.arrays.length := by
    rw [construct_perms, construct_heap]
    exact buildPerms_valid _ _ _ hval
  have haddd : (Role.add (Role.construct h u).1 P p).deref
      (Role.construct h u).2.permissions
      = (Role.construct h u).1.deref (Role.construct h u).2.permissions := by
    by_cases hc : ((Role.construct h u).1.deref P.permissions).contains p
    · have he : Role.add (Role.construct h u).1 P p
          = (Role.construct h u).1 := by
        simp only [Role.add]; rw [if_pos hc]
      rw [he]
    · have he : Role.add (Role.construct h u).1 P p
          = ((Role.construct h u).1).write P.permissions
            ((Role.construct h u).1.deref P.permissions ++ [p]) := by
        simp only [Role.add]; rw [if_neg hc]
      rw [he]
      simp only [Heap.write, Heap.deref]
      exact getD_set_ne _ _ _ _ _ hne
  have hremd : (Role.remove (Role.construct h u).1 P p).1.deref
      (Role.construct h u).2.permissions
      = (Role.construct h u).1.deref (Role.construct h u).2.permissions := by
    simp only [Role.remove, Heap.alloc, Heap.deref]
    exact getD_append_of_lt _ _ _ _ hcv
  refine ⟨haddd, ?_, hremd, ?_, rfl⟩
  · simp only [Role.has, haddd]
  · simp only [Role.has, hremd]

/-- C9 witness: with a parent holding `["x"]`, the child still answers
`has "x"` the same way after the parent is mutated by `add "y"`. -/
theorem c9_witness :
    Role.has (Role.add (Role.construct ⟨[[], ["x"]]⟩
          (mkUser 0 [mkRole 1 1 []])).1 (mkRole 1 1 []) "y")
        (Role.construct ⟨[[], ["x"]]⟩ (mkUser 0 [mkRole 1 1 []])).2 "x"
      = Role.has (Role.construct ⟨[[], ["x"]]⟩
          (mkUser 0 [mkRole 1 1 []])).1
        (Role.construct ⟨[[], ["x"]]⟩ (mkUser 0 [mkRole 1 1 []])).2 "x" :=
  (c9_parent_mutation_frame ⟨[[], ["x"]]⟩ (mkUser 0 [mkRole 1 1 []])
    (mkRole 1 1 []) "y" "x" 3 (by decide) (List.mem_cons_self _ _)
    (by decide)).2.1

/-- C10: a role constructed with no parents keeps `effectivePermissions`
and `rawPermissions` pointing at the same array (no copy), so `add`-ing a
new permission also extends the raw array: `hasInRaw` answers true for a
permission that was never constructor-supplied. -/
theorem c10_shared_array_add (h : Heap) (u : UserRole) (p : String)
    (hval : u.permissions < h.arrays.length)
    (hnil : u.inherits = [])
    (hmem : p ∉ h.deref u.permissions) :
    (Role.construct h u).2.permissions = (Role.construct h u).2.rawPermissions
    ∧ Role.hasInRaw (Role.construct h u).1 (Role.construct h u).2 p = false
    ∧ Role.hasInRaw
        (Role.add (Role.construct h u).1 (Role.construct h u).2 p)
        (Role.construct h u).2 p = true := by
  have hh : (Role.construct h u).1 = h := by
    rw [construct_heap, hnil, buildPerms_nil]
  have hperm : (Role.construct h u).2.permissions = u.permissions := by
    rw [construct_perms, hnil, buildPerms_nil]
  have hraw : (Role.construct h u).2.rawPermissions = u.permissions :=
    construct_raw h u
  have hcontains : ((Role.construct h u).1.deref
      (Role.construct h u).2.permissions).contains p = false := by
    rw [hh, hperm]
    cases hcp : (h.deref u.permissions).contains p
    · rfl
    · exact absurd (List.elem_iff.mp hcp) hmem
  have hadd : Role.add (Role.construct h u).1 (Role.construct h u).2 p
      = h.write u.permissions (h.deref u.permissions ++ [p]) := by
    have hcond : ¬ ((Role.construct h u).1.deref
        (Role.construct h u).2.permissions).contains p = true := by
      rw [hcontains]; exact Bool.false_ne_true
    simp only [Role.add]
    rw [if_neg hcond, hh, hperm]
  refine ⟨?_, ?_, ?_⟩
  · rw [hperm, hraw]
  · rw [Role.hasInRaw, hh, hraw]
    cases hls : linearSearch (h.deref u.permissions) p
    · rfl
    · exact absurd (linearSearch_iff.mp hls) hmem
  · rw [Role.hasInRaw, hadd, hraw]
    simp only [Heap.write, Heap.deref]
    rw [getD_set_self _ _ _ _ hval]
    exact linearSearch_iff.mpr
      (List.mem_append_right _ (List.mem_cons_self p []))

/-- C10 witness: constructing from `["a"]` with no parents, then
`add "b"`, makes `hasInRaw "b"` true. -/
theorem c10_witness :
    Role.hasInRaw
      (Role.add (Role.construct ⟨[["a"]]⟩ (mkUser 0 [])).1
        (Role.construct ⟨[["a"]]⟩ (mkUser 0 [])).2 "b")
      (Role.construct ⟨[["a"]]⟩ (mkUser 0 [])).2 "b" = true :=
  (c10_shared_array_add ⟨[["a"]]⟩ (mkUser 0 []) "b" (by decide) rfl
    (by decide)).2.2
